import Mathlib

/-!
Verification of the backupCLI restore core against its specification.

The Go sources under `pkg/restore` (`merge.go`, `log_client.go`, `client.go`)
are shallowly embedded below.  Byte strings (`[]byte`) are `List Nat`;
`bytes.Compare` is `bytesCmp`; `uint64` arithmetic is `Nat` arithmetic
modulo `2 ^ 64` where the source can overflow.  Helpers of this repository
that are not part of the given sources (the `rtree` range tree,
`beforeEnd`, `keyInsideRegion`, `utils.CompareEndKey`) are modelled from
the specification text and marked as such in their doc comments.
-/

namespace BR

/-- `bytes.Compare` from Go: lexicographic comparison of byte strings,
a proper prefix is smaller. -/
def bytesCmp : List Nat → List Nat → Ordering
  | [], [] => .eq
  | [], _ :: _ => .lt
  | _ :: _, [] => .gt
  | a :: as, b :: bs => if a < b then .lt else if b < a then .gt else bytesCmp as bs

theorem bytesCmp_refl (a : List Nat) : bytesCmp a a = .eq := by
  induction a with
  | nil => rfl
  | cons x xs ih => simp [bytesCmp, ih]

theorem bytesCmp_eq_iff : ∀ {a b : List Nat}, bytesCmp a b = .eq ↔ a = b := by
  intro a
  induction a with
  | nil => intro b; cases b <;> simp [bytesCmp]
  | cons x xs ih =>
    intro b
    cases b with
    | nil => simp [bytesCmp]
    | cons y ys =>
      by_cases hxy : x < y
      · simp [bytesCmp, hxy]
        omega
      · by_cases hyx : y < x
        · simp [bytesCmp, hxy, hyx]
          omega
        · have hxy2 : x = y := by omega
          simp [bytesCmp, hxy, hyx, hxy2, ih]

theorem bytesCmp_swap : ∀ (a b : List Nat), bytesCmp b a = (bytesCmp a b).swap := by
  intro a
  induction a with
  | nil => intro b; cases b <;> simp [bytesCmp, Ordering.swap]
  | cons x xs ih =>
    intro b
    cases b with
    | nil => simp [bytesCmp, Ordering.swap]
    | cons y ys =>
      by_cases hxy : x < y
      · have hyx : ¬ y < x := by omega
        simp [bytesCmp, hxy, hyx, Ordering.swap]
      · by_cases hyx : y < x
        · simp [bytesCmp, hxy, hyx, Ordering.swap]
        · simp [bytesCmp, hxy, hyx, ih]

theorem bytesCmp_gt_iff_lt {a b : List Nat} : bytesCmp a b = .gt ↔ bytesCmp b a = .lt := by
  have hs := bytesCmp_swap a b
  rcases h : bytesCmp a b with _ | _ | _ <;> rw [h] at hs <;> simp [hs, Ordering.swap]

theorem bytesCmp_lt_trans :
    ∀ {a b c : List Nat}, bytesCmp a b = .lt → bytesCmp b c = .lt → bytesCmp a c = .lt := by
  intro a
  induction a with
  | nil =>
    intro b c hab hbc
    cases b with
    | nil => exact hbc
    | cons y ys =>
      cases c with
      | nil => simp [bytesCmp] at hbc
      | cons z zs => rfl
  | cons x xs ih =>
    intro b c hab hbc
    cases b with
    | nil => simp [bytesCmp] at hab
    | cons y ys =>
      cases c with
      | nil => simp [bytesCmp] at hbc
      | cons z zs =>
        by_cases hxy : x < y <;> by_cases hyz : y < z
        · have hxz : x < z := by omega
          simp [bytesCmp, hxz]
        · by_cases hzy : z < y
          · simp [bytesCmp, hyz, hzy] at hbc
          · have hyz2 : y = z := by omega
            subst hyz2
            simp [bytesCmp, hxy]
        · by_cases hyx : y < x
          · simp [bytesCmp, hxy, hyx] at hab
          · have hxy2 : x = y := by omega
            subst hxy2
            simp [bytesCmp, hyz]
        · by_cases hyx : y < x
          · simp [bytesCmp, hxy, hyx] at hab
          · by_cases hzy : z < y
            · simp [bytesCmp, hyz, hzy] at hbc
            · have hxy2 : x = y := by omega
              have hyz2 : y = z := by omega
              subst hxy2; subst hyz2
              simp [bytesCmp, hxy] at hab hbc ⊢
              exact ih hab hbc

theorem bytesCmp_lt_of_lt_of_ne_gt {a b c : List Nat}
    (hab : bytesCmp a b = .lt) (hbc : bytesCmp b c ≠ .gt) : bytesCmp a c = .lt := by
  rcases h : bytesCmp b c with _ | _ | _
  · exact bytesCmp_lt_trans hab h
  · have : b = c := bytesCmp_eq_iff.mp h
    subst this; exact hab
  · exact absurd h hbc

theorem bytesCmp_lt_of_ne_gt_of_lt {a b c : List Nat}
    (hab : bytesCmp a b ≠ .gt) (hbc : bytesCmp b c = .lt) : bytesCmp a c = .lt := by
  rcases h : bytesCmp a b with _ | _ | _
  · exact bytesCmp_lt_trans h hbc
  · have : a = b := bytesCmp_eq_iff.mp h
    subst this; exact hbc
  · exact absurd h hab

theorem bytesCmp_ne_gt_trans {a b c : List Nat}
    (hab : bytesCmp a b ≠ .gt) (hbc : bytesCmp b c ≠ .gt) : bytesCmp a c ≠ .gt := by
  rcases h : bytesCmp a b with _ | _ | _
  · intro hac
    have hca : bytesCmp c a = .lt := bytesCmp_gt_iff_lt.mp hac
    have hcb : bytesCmp c b = .lt := bytesCmp_lt_trans hca h
    exact hbc (bytesCmp_gt_iff_lt.mpr hcb)
  · have : a = b := bytesCmp_eq_iff.mp h
    subst this; exact hbc
  · exact absurd h hab

theorem bytesCmp_total (a b : List Nat) : bytesCmp a b ≠ .gt ∨ bytesCmp b a ≠ .gt := by
  rcases h : bytesCmp a b with _ | _ | _
  · left; simp [h]
  · left; simp [h]
  · right
    have : bytesCmp b a = .lt := bytesCmp_gt_iff_lt.mp h
    simp [this]

/-- `2 ^ 64`, the modulus of Go `uint64` arithmetic. -/
def U64 : Nat := 2 ^ 64

/-- Go `uint64` addition: wraps modulo `2 ^ 64`. -/
def u64add (a b : Nat) : Nat := (a + b) % U64

theorem u64add_lt (a b : Nat) : u64add a b < U64 :=
  Nat.mod_lt _ (by simp [U64])

theorem u64add_zero_of_lt {a : Nat} (h : a < U64) : u64add a 0 = a := by
  simp [u64add, Nat.mod_eq_of_lt h]

/-- A backup file record (`kvproto.backup.File`): the fields used by
`merge.go` and `client.go`.  Byte strings are lists of bytes; `totalKvs`
and `totalBytes` are `uint64` values. -/
structure File where
  name : List Nat
  startKey : List Nat
  endKey : List Nat
  cf : List Nat
  totalKvs : Nat
  totalBytes : Nat
deriving DecidableEq, Repr

/-- `rtree.Range`: a key range with the files that materialize it. -/
structure MRange where
  startKey : List Nat
  endKey : List Nat
  files : List File
deriving DecidableEq, Repr

/-- The byte string `"write"` (`writeCFName` in `merge.go`). -/
def writeCFName : List Nat := [119, 114, 105, 116, 101]

/-- The byte string `"default"` (`defaultCFName` in `merge.go`). -/
def defaultCFName : List Nat := [100, 101, 102, 97, 117, 108, 116]

/-- Go `strings.Contains`: `sub` occurs as a contiguous substring of `s`. -/
def listContains (s sub : List Nat) : Bool :=
  match s with
  | [] => sub.isEmpty
  | _ :: rest => sub.isPrefixOf s || listContains rest sub

/-- A file is counted as a write-CF file in `MergeFileRanges` when its `Cf`
field equals `"write"` or its name contains `"write"`. -/
def isWriteCFFile (f : File) : Bool :=
  f.cf == writeCFName || listContains f.name writeCFName

/-- Number of write-CF files (`writeCFFile` counter in `MergeFileRanges`). -/
def countWriteCF (files : List File) : Nat := (files.filter isWriteCFFile).length

/-- `uint64` total of the `TotalBytes` fields of a file list (the byte half
of `rtree.Range.BytesAndKeys`, which accumulates with `uint64` addition,
hence the modulus). -/
def sumBytesU (files : List File) : Nat := (files.map File.totalBytes).sum % U64

/-- `uint64` total of the `TotalKvs` fields of a file list (the key half of
`rtree.Range.BytesAndKeys`). -/
def sumKvsU (files : List File) : Nat := (files.map File.totalKvs).sum % U64

def rangeBytesU (r : MRange) : Nat := sumBytesU r.files

def rangeKeysU (r : MRange) : Nat := sumKvsU r.files

theorem sumBytesU_lt (files : List File) : sumBytesU files < U64 :=
  Nat.mod_lt _ (by simp [U64])

theorem sumKvsU_lt (files : List File) : sumKvsU files < U64 :=
  Nat.mod_lt _ (by simp [U64])

theorem sumBytesU_append (a b : List File) :
    sumBytesU (a ++ b) = u64add (sumBytesU a) (sumBytesU b) := by
  simp [sumBytesU, u64add, Nat.add_mod]

theorem sumKvsU_append (a b : List File) :
    sumKvsU (a ++ b) = u64add (sumKvsU a) (sumKvsU b) := by
  simp [sumKvsU, u64add, Nat.add_mod]

/-- The distinct start keys of the input files, in order of first
occurrence.  (`MergeFileRanges` groups files through a Go map keyed by
start key; map iteration order is unspecified, so any fixed enumeration of
the same groups is a faithful model — the ranges are sorted by start key
before the merge sweep, and overlap detection is order independent.) -/
def distinctStarts (files : List File) : List (List Nat) :=
  files.foldl (fun acc f => if f.startKey ∈ acc then acc else acc ++ [f.startKey]) []

/-- The per-start-key file groups of `MergeFileRanges`, as ranges: each
group carries all files with that start key (in input order) and takes its
`StartKey`/`EndKey` from the group's first file. -/
def groupRanges (files : List File) : List MRange :=
  (distinctStarts files).map fun k =>
    let g := files.filter fun f => f.startKey == k
    { startKey := k, endKey := ((g.head?).map File.endKey).getD [], files := g }

/-- `a < b` where `b` is an end key and an empty end key means `+∞`. -/
def ltEndKey (a b : List Nat) : Bool := b.isEmpty || bytesCmp a b == .lt

/-- Modelled from the spec: the `rtree` key-interval tree is not under
`src/`.  Two half-open ranges (empty end key = `+∞`, §3 of the spec)
overlap when each starts before the other ends; inserting a range that
overlaps an already-inserted one reports the conflict (spec §4.1:
"insert each group into a key-interval tree to detect duplicate/overlapping
ranges"). -/
def rangesOverlap (a b : MRange) : Bool :=
  ltEndKey a.startKey b.endKey && ltEndKey b.startKey a.endKey

/-- Sequential insertion into the interval tree: fails on the first range
that overlaps one inserted before it. -/
def insertAllGo : List MRange → List MRange → Except Unit Unit
  | _, [] => .ok ()
  | inserted, r :: rest =>
    if inserted.any (fun x => rangesOverlap x r) then .error ()
    else insertAllGo (r :: inserted) rest

def insertAllCheck (gs : List MRange) : Except Unit Unit := insertAllGo [] gs

/-- Relation used to sort ranges by start key (ascending, as
`rtree.RangeTree.GetSortedRanges` iterates the tree in key order). -/
def rangeLeStart (a b : MRange) : Prop := bytesCmp a.startKey b.startKey ≠ .gt

instance : DecidableRel rangeLeStart := fun a b =>
  inferInstanceAs (Decidable (bytesCmp a.startKey b.startKey ≠ .gt))

instance : IsTotal MRange rangeLeStart :=
  ⟨fun a b => bytesCmp_total a.startKey b.startKey⟩

instance : IsTrans MRange rangeLeStart :=
  ⟨fun _ _ _ hab hbc => bytesCmp_ne_gt_trans hab hbc⟩

def sortRangesByStart (gs : List MRange) : List MRange := gs.insertionSort rangeLeStart

/-- `needMerge` from `merge.go`: merge `right` into `left` when `right` has
zero bytes, or when the combined bytes and keys fit the budgets and both
start keys decode to the same table id.  `tid` is
`tablecodec.DecodeTableID` (external TiDB library), abstracted as a
function from keys to table ids. -/
def needMerge (tid : List Nat → Int) (splitSizeBytes splitKeyCount : Nat)
    (left right : MRange) : Bool :=
  let leftBytes := rangeBytesU left
  let leftKeys := rangeKeysU left
  let rightBytes := rangeBytesU right
  let rightKeys := rangeKeysU right
  if rightBytes = 0 then true
  else if splitSizeBytes < u64add leftBytes rightBytes then false
  else if splitKeyCount < u64add leftKeys rightKeys then false
  else if tid left.startKey ≠ tid right.startKey then false
  else true

/-- Merging adjacent ranges in the sweep: the left range absorbs the right
one's end key and files. -/
def mergeRanges (a b : MRange) : MRange :=
  { startKey := a.startKey, endKey := b.endKey, files := a.files ++ b.files }

/-- The left-to-right merge sweep of `MergeFileRanges`, one step at a
time: `cur` is the range under the cursor (`sortedRanges[i-1]` in the Go
loop), the list holds the ranges to its right.  On `needMerge` the cursor
absorbs its right neighbour and stays, otherwise it is emitted and the
cursor advances. -/
def mergeSweepFrom (tid : List Nat → Int) (sB sK : Nat) : MRange → List MRange → List MRange
  | cur, [] => [cur]
  | cur, b :: rest =>
    if needMerge tid sB sK cur b then mergeSweepFrom tid sB sK (mergeRanges cur b) rest
    else cur :: mergeSweepFrom tid sB sK b rest

/-- The full merge sweep of `MergeFileRanges` over the sorted range list. -/
def mergeSweep (tid : List Nat → Int) (sB sK : Nat) : List MRange → List MRange
  | [] => []
  | a :: rest => mergeSweepFrom tid sB sK a rest

/-- `MergeRangesStat`: the statistics record returned with the ranges.
The Go code casts the `uint64` averages to `int`; the values themselves
are stored here. -/
structure MergeRangesStat where
  totalFiles : Nat
  totalWriteCFFile : Nat
  totalDefaultCFFile : Nat
  totalRegions : Nat
  regionKeysAvg : Nat
  regionBytesAvg : Nat
  mergedRegions : Nat
  mergedRegionKeysAvg : Nat
  mergedRegionBytesAvg : Nat
deriving DecidableEq, Repr

/-- The ways `MergeFileRanges` can fail: the `ErrRestoreInvalidRange`
error for overlapping ranges, and the runtime panic from dividing by a
zero divisor when computing the statistics. -/
inductive MergeErr
  | invalidRange
  | panicDivZero
deriving DecidableEq, Repr

/-- The statistics record computed at the end of `MergeFileRanges` (the Go
code casts the `uint64` averages to `int`; the divisors are
`writeCFFile` and `len(sortedRanges)`, both nonzero on this path). -/
def mergeStatOf (files : List File) (merged : List MRange) : MergeRangesStat :=
  { totalFiles := files.length
    totalWriteCFFile := countWriteCF files
    totalDefaultCFFile := files.length - countWriteCF files
    totalRegions := countWriteCF files
    regionKeysAvg := sumKvsU files / countWriteCF files
    regionBytesAvg := sumBytesU files / countWriteCF files
    mergedRegions := merged.length
    mergedRegionKeysAvg := sumKvsU files / merged.length
    mergedRegionBytesAvg := sumBytesU files / merged.length }

/-- The sorted-and-merged range list of `MergeFileRanges`. -/
def planMerged (tid : List Nat → Int) (files : List File) (sB sK : Nat) : List MRange :=
  mergeSweep tid sB sK (sortRangesByStart (groupRanges files))

/-- `MergeFileRanges` from `merge.go`: group files by start key, detect
overlapping groups through the interval tree, sort by start key, run the
merge sweep, then compute statistics.  Go division panics on a zero
divisor, modelled as the `panicDivZero` outcome. -/
def mergeFileRanges (tid : List Nat → Int) (files : List File)
    (splitSizeBytes splitKeyCount : Nat) : Except MergeErr (List MRange × MergeRangesStat) :=
  if files = [] then .ok ([], ⟨0, 0, 0, 0, 0, 0, 0, 0, 0⟩)
  else
    match insertAllCheck (groupRanges files) with
    | .error _ => .error .invalidRange
    | .ok _ =>
      if countWriteCF files = 0 then .error .panicDivZero
      else if (planMerged tid files splitSizeBytes splitKeyCount).length = 0 then
        .error .panicDivZero
      else .ok (planMerged tid files splitSizeBytes splitKeyCount,
        mergeStatOf files (planMerged tid files splitSizeBytes splitKeyCount))

/-- The merged ranges of a successful `MergeFileRanges` call, `none` on
error or panic. -/
def okRanges (tid : List Nat → Int) (files : List File) (sB sK : Nat) :
    Option (List MRange) :=
  match mergeFileRanges tid files sB sK with
  | .ok (rs, _) => some rs
  | .error _ => none

/-- The failure outcome of `MergeFileRanges`, `none` on success. -/
def errOf (tid : List Nat → Int) (files : List File) (sB sK : Nat) : Option MergeErr :=
  match mergeFileRanges tid files sB sK with
  | .ok _ => none
  | .error e => some e

theorem rangeBytesU_merge (a b : MRange) :
    rangeBytesU (mergeRanges a b) = u64add (rangeBytesU a) (rangeBytesU b) := by
  simp [rangeBytesU, mergeRanges, sumBytesU_append]

theorem rangeKeysU_merge (a b : MRange) :
    rangeKeysU (mergeRanges a b) = u64add (rangeKeysU a) (rangeKeysU b) := by
  simp [rangeKeysU, mergeRanges, sumKvsU_append]

theorem needMerge_true_of_ne_zero {tid : List Nat → Int} {sB sK : Nat} {a b : MRange}
    (h : needMerge tid sB sK a b = true) (hb : rangeBytesU b ≠ 0) :
    u64add (rangeBytesU a) (rangeBytesU b) ≤ sB ∧
      u64add (rangeKeysU a) (rangeKeysU b) ≤ sK ∧
      tid a.startKey = tid b.startKey := by
  unfold needMerge at h
  rw [if_neg hb] at h
  split_ifs at h with h1 h2 h3
  exact ⟨by omega, by omega, by tauto⟩

/-- All files of a range decode to the table id of the range's start key. -/
def tidAligned (tid : List Nat → Int) (r : MRange) : Prop :=
  ∀ f ∈ r.files, tid f.startKey = tid r.startKey

theorem tidAligned_merge {tid : List Nat → Int} {a b : MRange}
    (ha : tidAligned tid a) (hb : tidAligned tid b)
    (hab : tid a.startKey = tid b.startKey) : tidAligned tid (mergeRanges a b) := by
  intro f hf
  rcases List.mem_append.mp hf with h | h
  · exact ha f h
  · rw [hb f h, mergeRanges, ← hab]

theorem mergeSweepFrom_tidAligned (tid : List Nat → Int) (sB sK : Nat) :
    ∀ (l : List MRange) (cur : MRange), tidAligned tid cur →
      (∀ r ∈ l, tidAligned tid r ∧ rangeBytesU r ≠ 0) →
      ∀ r ∈ mergeSweepFrom tid sB sK cur l, tidAligned tid r := by
  intro l
  induction l with
  | nil =>
    intro cur hc _ r hr
    simp [mergeSweepFrom] at hr
    exact hr ▸ hc
  | cons b rest ih =>
    intro cur hc hl r hr
    have hb := hl b (List.mem_cons_self b rest)
    by_cases hm : needMerge tid sB sK cur b = true
    · rw [mergeSweepFrom, if_pos hm] at hr
      have htid := (needMerge_true_of_ne_zero hm hb.2).2.2
      exact ih (mergeRanges cur b) (tidAligned_merge hc hb.1 htid)
        (fun x hx => hl x (List.mem_cons_of_mem b hx)) r hr
    · rw [mergeSweepFrom, if_neg hm] at hr
      rcases List.mem_cons.mp hr with h | h
      · exact h ▸ hc
      · exact ih b hb.1 (fun x hx => hl x (List.mem_cons_of_mem b hx)) r h

theorem mergeSweepFrom_budgets (tid : List Nat → Int) (sB sK : Nat) :
    ∀ (l : List MRange) (cur : MRange),
      rangeBytesU cur ≤ sB → rangeKeysU cur ≤ sK →
      (∀ r ∈ l, (rangeBytesU r ≤ sB ∧ rangeKeysU r ≤ sK) ∧
        (rangeBytesU r = 0 → rangeKeysU r = 0)) →
      ∀ r ∈ mergeSweepFrom tid sB sK cur l, rangeBytesU r ≤ sB ∧ rangeKeysU r ≤ sK := by
  intro l
  induction l with
  | nil =>
    intro cur hcb hck _ r hr
    simp [mergeSweepFrom] at hr
    exact hr ▸ ⟨hcb, hck⟩
  | cons b rest ih =>
    intro cur hcb hck hl r hr
    have hb := hl b (List.mem_cons_self b rest)
    have hrest : ∀ x ∈ rest, (rangeBytesU x ≤ sB ∧ rangeKeysU x ≤ sK) ∧
        (rangeBytesU x = 0 → rangeKeysU x = 0) :=
      fun x hx => hl x (List.mem_cons_of_mem b hx)
    by_cases hm : needMerge tid sB sK cur b = true
    · rw [mergeSweepFrom, if_pos hm] at hr
      by_cases hb0 : rangeBytesU b = 0
      · have hk0 : rangeKeysU b = 0 := hb.2 hb0
        have e1 : rangeBytesU (mergeRanges cur b) = rangeBytesU cur := by
          rw [rangeBytesU_merge, hb0]
          exact u64add_zero_of_lt (sumBytesU_lt _)
        have e2 : rangeKeysU (mergeRanges cur b) = rangeKeysU cur := by
          rw [rangeKeysU_merge, hk0]
          exact u64add_zero_of_lt (sumKvsU_lt _)
        exact ih (mergeRanges cur b) (e1 ▸ hcb) (e2 ▸ hck) hrest r hr
      · obtain ⟨h1, h2, _⟩ := needMerge_true_of_ne_zero hm hb0
        exact ih (mergeRanges cur b) (by rw [rangeBytesU_merge]; exact h1)
          (by rw [rangeKeysU_merge]; exact h2) hrest r hr
    · rw [mergeSweepFrom, if_neg hm] at hr
      rcases List.mem_cons.mp hr with h | h
      · exact h ▸ ⟨hcb, hck⟩
      · exact ih b hb.1.1 hb.1.2 hrest r h

theorem groupRanges_startKey {files : List File} {r : MRange}
    (hr : r ∈ groupRanges files) : ∀ f ∈ r.files, f.startKey = r.startKey := by
  simp only [groupRanges, List.mem_map] at hr
  obtain ⟨k, _, rfl⟩ := hr
  intro f hf
  have := List.of_mem_filter hf
  simpa using this

theorem mem_sortRangesByStart {gs : List MRange} {r : MRange} :
    r ∈ sortRangesByStart gs ↔ r ∈ gs :=
  (List.perm_insertionSort rangeLeStart gs).mem_iff

theorem okRanges_eq_sweep {tid : List Nat → Int} {files : List File} {sB sK : Nat}
    {rs : List MRange} (h : okRanges tid files sB sK = some rs) :
    rs = planMerged tid files sB sK := by
  unfold okRanges mergeFileRanges at h
  by_cases hf : files = []
  · rw [if_pos hf] at h
    subst hf
    simp at h
    subst h
    rfl
  · rw [if_neg hf] at h
    rcases hins : insertAllCheck (groupRanges files) with e | u
    · rw [hins] at h
      simp at h
    · rw [hins] at h
      by_cases hw : countWriteCF files = 0
      · rw [if_pos hw] at h
        simp at h
      · rw [if_neg hw] at h
        by_cases hm : (planMerged tid files sB sK).length = 0
        · rw [if_pos hm] at h
          simp at h
        · rw [if_neg hm] at h
          simp at h
          exact h.symm

/-- **C1** (amended).  Provided every per-start-key file group has nonzero
total bytes, no merged range produced by `MergeFileRanges` mixes tables:
in every output range, every file's start key decodes to the table id of
the range's start key.  (Without that proviso the zero-byte branch of
`needMerge` merges across table boundaries, see the counterexample.) -/
theorem c1_no_cross_table_merge (tid : List Nat → Int) (files : List File) (sB sK : Nat)
    (hpos : ∀ r ∈ groupRanges files, rangeBytesU r ≠ 0)
    (rs : List MRange) (hok : okRanges tid files sB sK = some rs) :
    ∀ r ∈ rs, ∀ f ∈ r.files, tid f.startKey = tid r.startKey := by
  have hrs := okRanges_eq_sweep hok
  subst hrs
  unfold planMerged
  have haligned : ∀ r ∈ sortRangesByStart (groupRanges files), tidAligned tid r := by
    intro r hr f hf
    rw [groupRanges_startKey (mem_sortRangesByStart.mp hr) f hf]
  have hpos2 : ∀ r ∈ sortRangesByStart (groupRanges files), rangeBytesU r ≠ 0 :=
    fun r hr => hpos r (mem_sortRangesByStart.mp hr)
  rcases hs : sortRangesByStart (groupRanges files) with _ | ⟨a, rest⟩
  · intro r hr
    simp [mergeSweep] at hr
  · intro r hr
    rw [mergeSweep] at hr
    refine mergeSweepFrom_tidAligned tid sB sK rest a ?_ ?_ r hr
    · exact haligned a (hs ▸ List.mem_cons_self a rest)
    · intro x hx
      have hx2 := hs ▸ List.mem_cons_of_mem a hx
      exact ⟨haligned x hx2, hpos2 x hx2⟩

/-- A table-id decoder distinguishing start key `[1]` (table 1) from all
other keys (table 2); stands in for `tablecodec.DecodeTableID` in the C1
counterexample. -/
def tidOneTwo : List Nat → Int := fun k => if k = [1] then 1 else 2

/-- A table-id decoder mapping every key to table 0. -/
def tidZero : List Nat → Int := fun _ => 0

/-- A write-CF file in table 1 with one key and one byte. -/
def cxWriteFile : File :=
  { name := [], startKey := [1], endKey := [2], cf := writeCFName, totalKvs := 1, totalBytes := 1 }

/-- A default-CF file in another table whose totals are zero. -/
def cxZeroFile : File :=
  { name := [], startKey := [3], endKey := [4], cf := defaultCFName, totalKvs := 0, totalBytes := 0 }

/-- Concrete input refuting C1 as stated: two files in different tables,
the right one with zero total bytes; `needMerge`'s zero-byte branch merges
them across the table boundary (the budgets are never consulted), and the
single output range mixes two table ids. -/
theorem c1_counterexample :
    okRanges tidOneTwo [cxWriteFile, cxZeroFile] 100 100 =
      some [{ startKey := [1], endKey := [4], files := [cxWriteFile, cxZeroFile] }] ∧
      tidOneTwo cxZeroFile.startKey ≠ tidOneTwo cxWriteFile.startKey := by
  constructor
  · decide
  · decide

/-- Witness for the amended C1 at a concrete input. -/
theorem c1_witness :
    (∀ r ∈ groupRanges [cxWriteFile], rangeBytesU r ≠ 0) ∧
      tidZero cxWriteFile.startKey =
        tidZero (MRange.startKey { startKey := [1], endKey := [2], files := [cxWriteFile] }) := by
  refine ⟨by decide, ?_⟩
  exact c1_no_cross_table_merge tidZero [cxWriteFile] 100 100 (by decide)
    [{ startKey := [1], endKey := [2], files := [cxWriteFile] }] (by decide)
    { startKey := [1], endKey := [2], files := [cxWriteFile] } (by decide)
    cxWriteFile (by decide)

/-- **C2** (amended).  If every per-start-key file group fits both budgets
and every zero-byte group also has zero keys, then every merged range
returned by `MergeFileRanges` satisfies both budgets (`uint64` sums of its
files' `TotalBytes` and `TotalKvs`).  Without the zero-byte proviso the
zero-byte branch of `needMerge` can merge a group whose key count breaks
the key budget, see the counterexample. -/
theorem c2_merged_ranges_fit_budgets (tid : List Nat → Int) (files : List File) (sB sK : Nat)
    (hfit : ∀ r ∈ groupRanges files, rangeBytesU r ≤ sB ∧ rangeKeysU r ≤ sK)
    (hz : ∀ r ∈ groupRanges files, rangeBytesU r = 0 → rangeKeysU r = 0)
    (rs : List MRange) (hok : okRanges tid files sB sK = some rs) :
    ∀ r ∈ rs, rangeBytesU r ≤ sB ∧ rangeKeysU r ≤ sK := by
  have hrs := okRanges_eq_sweep hok
  subst hrs
  unfold planMerged
  have hfit2 : ∀ r ∈ sortRangesByStart (groupRanges files),
      rangeBytesU r ≤ sB ∧ rangeKeysU r ≤ sK :=
    fun r hr => hfit r (mem_sortRangesByStart.mp hr)
  have hz2 : ∀ r ∈ sortRangesByStart (groupRanges files),
      rangeBytesU r = 0 → rangeKeysU r = 0 :=
    fun r hr => hz r (mem_sortRangesByStart.mp hr)
  rcases hs : sortRangesByStart (groupRanges files) with _ | ⟨a, rest⟩
  · intro r hr
    simp [mergeSweep] at hr
  · intro r hr
    rw [mergeSweep] at hr
    have ha := hfit2 a (hs ▸ List.mem_cons_self a rest)
    refine mergeSweepFrom_budgets tid sB sK rest a ha.1 ha.2 ?_ r hr
    intro x hx
    have hx2 := hs ▸ List.mem_cons_of_mem a hx
    exact ⟨hfit2 x hx2, hz2 x hx2⟩

/-- A write-CF file whose group fits the budgets `(100, 100)`. -/
def cxSmallFile : File :=
  { name := [], startKey := [1], endKey := [2], cf := writeCFName, totalKvs := 90, totalBytes := 5 }

/-- A default-CF file with zero bytes but 90 keys. -/
def cxHeavyZeroFile : File :=
  { name := [], startKey := [3], endKey := [4], cf := defaultCFName, totalKvs := 90, totalBytes := 0 }

/-- Concrete input refuting C2 as stated: both per-start-key groups fit
the budgets `(100, 100)`, yet the zero-byte branch of `needMerge` merges
them and the merged range carries `180 > 100` keys. -/
theorem c2_counterexample :
    okRanges tidZero [cxSmallFile, cxHeavyZeroFile] 100 100 =
      some [{ startKey := [1], endKey := [4], files := [cxSmallFile, cxHeavyZeroFile] }] ∧
      (∀ r ∈ groupRanges [cxSmallFile, cxHeavyZeroFile],
        rangeBytesU r ≤ 100 ∧ rangeKeysU r ≤ 100) ∧
      rangeKeysU { startKey := [1], endKey := [4],
                   files := [cxSmallFile, cxHeavyZeroFile] } = 180 := by
  refine ⟨by decide, by decide, by decide⟩

/-- Witness for the amended C2 at a concrete input. -/
theorem c2_witness :
    (∀ r ∈ groupRanges [cxSmallFile], rangeBytesU r ≤ 100 ∧ rangeKeysU r ≤ 100) ∧
      rangeBytesU { startKey := [1], endKey := [2], files := [cxSmallFile] } ≤ 100 ∧
      rangeKeysU { startKey := [1], endKey := [2], files := [cxSmallFile] } ≤ 100 := by
  refine ⟨by decide, ?_⟩
  exact c2_merged_ranges_fit_budgets tidZero [cxSmallFile] 100 100 (by decide) (by decide)
    [{ startKey := [1], endKey := [2], files := [cxSmallFile] }] (by decide)
    { startKey := [1], endKey := [2], files := [cxSmallFile] } (by decide)

theorem insertAllGo_ok_iff : ∀ (l ins : List MRange),
    insertAllGo ins l = .ok () ↔
      ((∀ r ∈ l, ∀ x ∈ ins, rangesOverlap x r = false) ∧
        l.Pairwise (fun a b => rangesOverlap a b = false)) := by
  intro l
  induction l with
  | nil =>
    intro ins
    simp [insertAllGo]
  | cons r rest ih =>
    intro ins
    rw [insertAllGo]
    by_cases hany : ins.any (fun x => rangesOverlap x r) = true
    · rw [if_pos hany]
      simp only [List.any_eq_true] at hany
      obtain ⟨x, hx, hov⟩ := hany
      constructor
      · intro h
        simp at h
      · rintro ⟨h1, _⟩
        have := h1 r (List.mem_cons_self r rest) x hx
        rw [this] at hov
        simp at hov
    · rw [if_neg hany, ih]
      simp only [List.any_eq_true, not_exists] at hany
      have hins : ∀ x ∈ ins, rangesOverlap x r = false := by
        intro x hx
        have := hany x
        simp [hx] at this
        exact this
      constructor
      · rintro ⟨h1, h2⟩
        refine ⟨?_, List.pairwise_cons.mpr ⟨?_, h2⟩⟩
        · intro q hq x hx
          rcases List.mem_cons.mp hq with rfl | hq2
          · exact hins x hx
          · exact h1 q hq2 x (List.mem_cons_of_mem r hx)
        · intro q hq2
          exact h1 q hq2 r (List.mem_cons_self r ins)
      · rintro ⟨h1, h2⟩
        obtain ⟨hhead, htail⟩ := List.pairwise_cons.mp h2
        refine ⟨?_, htail⟩
        intro q hq2 x hx
        rcases List.mem_cons.mp hx with rfl | hx2
        · exact hhead q hq2
        · exact h1 q (List.mem_cons_of_mem r hq2) x hx2

/-- **C8**.  `MergeFileRanges` fails with `InvalidRange` exactly when the
input is nonempty and two of its per-start-key groups have overlapping
(or duplicate) key ranges, as detected by insertion into the interval
tree; on that failure the `Except` carries no ranges and no statistics by
construction. -/
theorem c8_invalid_range_iff (tid : List Nat → Int) (files : List File) (sB sK : Nat) :
    errOf tid files sB sK = some .invalidRange ↔
      files ≠ [] ∧
        ¬ (groupRanges files).Pairwise (fun a b => rangesOverlap a b = false) := by
  unfold errOf mergeFileRanges
  by_cases hf : files = []
  · rw [if_pos hf]
    simp [hf]
  · rw [if_neg hf]
    rcases hins : insertAllCheck (groupRanges files) with e | u
    · cases e
      have hne : insertAllGo [] (groupRanges files) ≠ .ok () := by
        rw [show insertAllGo [] (groupRanges files) = insertAllCheck (groupRanges files) from rfl,
          hins]
        simp
      have hnpw : ¬ (groupRanges files).Pairwise (fun a b => rangesOverlap a b = false) := by
        intro hpw
        exact hne ((insertAllGo_ok_iff (groupRanges files) []).mpr
          ⟨by intro r _ x hx; simp at hx, hpw⟩)
      constructor
      · intro _
        exact ⟨hf, hnpw⟩
      · intro _
        rfl
    · cases u
      have hok : insertAllGo [] (groupRanges files) = .ok () := hins
      rw [insertAllGo_ok_iff] at hok
      constructor
      · intro h
        exfalso
        by_cases hw : countWriteCF files = 0
        · simp [hw] at h
        · by_cases hm : (planMerged tid files sB sK).length = 0
          · simp [hw, hm] at h
          · simp [hw, hm] at h
      · rintro ⟨_, hnpw⟩
        exact absurd hok.2 hnpw

/-- **C9**.  On a nonempty input in which no file is classified as
write-CF (`Cf = "write"` or name containing `"write"`), `MergeFileRanges`
never returns normally: it either fails with `InvalidRange` on overlap or
reaches the statistics division by the zero write-CF count, a runtime
panic in Go. -/
theorem c9_write_cf_required (tid : List Nat → Int) (files : List File) (sB sK : Nat)
    (h1 : files ≠ []) (h2 : countWriteCF files = 0) :
    okRanges tid files sB sK = none ∧
      (errOf tid files sB sK = some .invalidRange ∨
        errOf tid files sB sK = some .panicDivZero) := by
  unfold okRanges errOf mergeFileRanges
  rw [if_neg h1]
  rcases hins : insertAllCheck (groupRanges files) with e | u
  · cases e
    simp
  · cases u
    simp [h2]

/-- Witness for C9 at a concrete input: a single default-CF file reaches
the division by the zero write-CF count. -/
theorem c9_witness :
    okRanges tidZero [cxHeavyZeroFile] 1 1 = none ∧
      (errOf tidZero [cxHeavyZeroFile] 1 1 = some .invalidRange ∨
        errOf tidZero [cxHeavyZeroFile] 1 1 = some .panicDivZero) :=
  c9_write_cf_required tidZero [cxHeavyZeroFile] 1 1 (by decide) (by decide)

/-- A kv pair (`kv.Pair` of `pkg/kv`, as used by the log restore path). -/
structure Pair where
  key : List Nat
  val : List Nat
  isDelete : Bool
deriving DecidableEq, Repr

/-- The non-strict ordering the stably sorted kv list satisfies:
`writeRows` sorts with `bytes.Compare(kvs[i].Key, kvs[j].Key) < 0`, so in
the result no later key is strictly below an earlier one, which by
`bytesCmp_gt_iff_lt` is `bytesCmp p.key q.key ≠ .gt`. -/
def pairLe (p q : Pair) : Prop := bytesCmp p.key q.key ≠ .gt

/-- Strict key order between pairs. -/
def pairLt (p q : Pair) : Prop := bytesCmp p.key q.key = .lt

instance : DecidableRel pairLe := fun p q =>
  inferInstanceAs (Decidable (bytesCmp p.key q.key ≠ .gt))

instance : DecidableRel pairLt := fun p q =>
  inferInstanceAs (Decidable (bytesCmp p.key q.key = .lt))

instance : IsTotal Pair pairLe := ⟨fun p q => bytesCmp_total p.key q.key⟩

instance : IsTrans Pair pairLe := ⟨fun _ _ _ hab hbc => bytesCmp_ne_gt_trans hab hbc⟩

/-- The stable sort of `writeRows` (`sort.SliceStable` by key); insertion
sort is stable, so it computes the same list. -/
def sortKvs (kvs : List Pair) : List Pair := kvs.insertionSort pairLe

/-- The duplicate-removal loop of `writeRows`: walking the sorted list,
a pair is dropped when the next pair carries the same key (`bytes.Equal`),
so the last pair of every equal-key run survives. -/
def dedupKvs : List Pair → List Pair
  | [] => []
  | [p] => [p]
  | p :: q :: rest => if p.key = q.key then dedupKvs (q :: rest) else p :: dedupKvs (q :: rest)

/-- The kv sequence `writeRows` hands to `writeAndIngestPairs`:
stable-sort by key, then drop duplicate keys keeping the last occurrence. -/
def writeRowsPrepared (kvs : List Pair) : List Pair := dedupKvs (sortKvs kvs)

theorem pairLt_of_le_of_ne {p q : Pair} (h : pairLe p q) (hne : p.key ≠ q.key) : pairLt p q := by
  rcases hc : bytesCmp p.key q.key with _ | _ | _
  · exact hc
  · exact absurd (bytesCmp_eq_iff.mp hc) hne
  · exact absurd hc h

theorem mem_of_mem_dedupKvs : ∀ {l : List Pair} {p : Pair}, p ∈ dedupKvs l → p ∈ l := by
  intro l
  induction l with
  | nil => intro p hp; simp [dedupKvs] at hp
  | cons a tail ih =>
    cases tail with
    | nil => intro p hp; simpa [dedupKvs] using hp
    | cons b rest =>
      intro p hp
      rw [dedupKvs] at hp
      by_cases hk : a.key = b.key
      · rw [if_pos hk] at hp
        exact List.mem_cons_of_mem a (ih hp)
      · rw [if_neg hk] at hp
        rcases List.mem_cons.mp hp with rfl | hp2
        · exact List.mem_cons_self p (b :: rest)
        · exact List.mem_cons_of_mem a (ih hp2)

theorem dedupKvs_covers : ∀ {l : List Pair} {p : Pair}, p ∈ l →
    ∃ q ∈ dedupKvs l, q.key = p.key := by
  intro l
  induction l with
  | nil => intro p hp; simp at hp
  | cons a tail ih =>
    cases tail with
    | nil =>
      intro p hp
      rcases List.mem_cons.mp hp with rfl | h
      · exact ⟨p, by simp [dedupKvs], rfl⟩
      · simp at h
    | cons b rest =>
      intro p hp
      by_cases hk : a.key = b.key
      · have he : dedupKvs (a :: b :: rest) = dedupKvs (b :: rest) := by
          rw [dedupKvs, if_pos hk]
        rcases List.mem_cons.mp hp with rfl | hp2
        · obtain ⟨q, hq, hqk⟩ := ih (List.mem_cons_self b rest)
          exact ⟨q, he ▸ hq, by rw [hqk, ← hk]⟩
        · obtain ⟨q, hq, hqk⟩ := ih hp2
          exact ⟨q, he ▸ hq, hqk⟩
      · have he : dedupKvs (a :: b :: rest) = a :: dedupKvs (b :: rest) := by
          rw [dedupKvs, if_neg hk]
        rcases List.mem_cons.mp hp with rfl | hp2
        · exact ⟨p, he ▸ List.mem_cons_self p (dedupKvs (b :: rest)), rfl⟩
        · obtain ⟨q, hq, hqk⟩ := ih hp2
          exact ⟨q, he ▸ List.mem_cons_of_mem a hq, hqk⟩

theorem dedupKvs_strict : ∀ {l : List Pair}, l.Pairwise pairLe →
    (dedupKvs l).Pairwise pairLt := by
  intro l
  induction l with
  | nil => intro _; simp [dedupKvs]
  | cons a tail ih =>
    cases tail with
    | nil => intro _; simp [dedupKvs]
    | cons b rest =>
      intro hpw
      obtain ⟨ha, hpw2⟩ := List.pairwise_cons.mp hpw
      by_cases hk : a.key = b.key
      · rw [dedupKvs, if_pos hk]
        exact ih hpw2
      · rw [dedupKvs, if_neg hk]
        refine List.pairwise_cons.mpr ⟨?_, ih hpw2⟩
        intro y hy
        have hyin : y ∈ b :: rest := mem_of_mem_dedupKvs hy
        have hab : pairLt a b := pairLt_of_le_of_ne (ha b (List.mem_cons_self b rest)) hk
        rcases List.mem_cons.mp hyin with rfl | hy2
        · exact hab
        · have hby : pairLe b y := (List.pairwise_cons.mp hpw2).1 y hy2
          exact bytesCmp_lt_of_lt_of_ne_gt hab hby

theorem dedupKvs_last_occurrence : ∀ {l : List Pair}, l.Pairwise pairLe →
    ∀ q ∈ dedupKvs l, (l.filter (fun p => p.key == q.key)).getLast? = some q := by
  intro l
  induction l with
  | nil => intro _ q hq; simp [dedupKvs] at hq
  | cons a tail ih =>
    cases tail with
    | nil =>
      intro _ q hq
      simp [dedupKvs] at hq
      subst hq
      simp
    | cons b rest =>
      intro hpw q hq
      obtain ⟨ha, hpw2⟩ := List.pairwise_cons.mp hpw
      by_cases hk : a.key = b.key
      · rw [dedupKvs, if_pos hk] at hq
        have hrec := ih hpw2 q hq
        by_cases hqa : (a.key == q.key) = true
        · have hbq : (b.key == q.key) = true := by
            rw [← hk]
            exact hqa
          have hbmem : b ∈ (b :: rest).filter (fun p => p.key == q.key) :=
            List.mem_filter.mpr ⟨List.mem_cons_self b rest, hbq⟩
          rw [List.filter_cons, if_pos hqa]
          rcases hfe : (b :: rest).filter (fun p => p.key == q.key) with _ | ⟨y, ys⟩
          · rw [hfe] at hbmem
            simp at hbmem
          · rw [hfe] at hrec
            rw [hfe, List.getLast?_cons_cons]
            exact hrec
        · rw [List.filter_cons, if_neg hqa]
          exact hrec
      · rw [dedupKvs, if_neg hk] at hq
        have hlt : ∀ x ∈ b :: rest, bytesCmp a.key x.key = .lt := by
          intro x hx
          have hab : pairLt a b := pairLt_of_le_of_ne (ha b (List.mem_cons_self b rest)) hk
          rcases List.mem_cons.mp hx with rfl | hx2
          · exact hab
          · exact bytesCmp_lt_of_lt_of_ne_gt hab ((List.pairwise_cons.mp hpw2).1 x hx2)
        rcases List.mem_cons.mp hq with rfl | hq2
        · have hnone : ∀ x ∈ b :: rest, ¬ ((fun p => p.key == q.key) x = true) := by
            intro x hx hxq
            have hx2 : x.key = q.key := beq_iff_eq.mp hxq
            have hlt2 : bytesCmp q.key x.key = .lt := hlt x hx
            rw [hx2, bytesCmp_refl] at hlt2
            simp at hlt2
          rw [List.filter_cons, if_pos (beq_self_eq_true q.key),
            List.filter_eq_nil_iff.mpr hnone]
          rfl
        · have hrec := ih hpw2 q hq2
          have hqkey : ¬ ((fun p => p.key == q.key) a = true) := by
            intro hxq
            have hx2 : a.key = q.key := beq_iff_eq.mp hxq
            have hq3 : q ∈ b :: rest := mem_of_mem_dedupKvs hq2
            have hlt2 : bytesCmp a.key q.key = .lt := hlt q hq3
            rw [hx2, bytesCmp_refl] at hlt2
            simp at hlt2
          rw [List.filter_cons, if_neg hqkey]
          exact hrec

/-- **C4**.  `writeRows` stable-sorts the pairs by key and removes
duplicate keys keeping the last occurrence: the list handed to
`writeAndIngestPairs` is strictly increasing in key, carries exactly the
keys of the input, and for each key carries the pair standing at that
key's last occurrence in the stably sorted input (last-writer-wins). -/
theorem c4_writeRows_last_writer_wins (kvs : List Pair) (_hne : kvs ≠ []) :
    (writeRowsPrepared kvs).Pairwise pairLt ∧
      (∀ k : List Nat, (∃ p ∈ kvs, p.key = k) ↔ ∃ q ∈ writeRowsPrepared kvs, q.key = k) ∧
      ∀ q ∈ writeRowsPrepared kvs,
        ((sortKvs kvs).filter (fun p => p.key == q.key)).getLast? = some q := by
  have hsorted : (sortKvs kvs).Pairwise pairLe := List.sorted_insertionSort pairLe kvs
  have hperm := List.perm_insertionSort pairLe kvs
  refine ⟨dedupKvs_strict hsorted, ?_, dedupKvs_last_occurrence hsorted⟩
  intro k
  constructor
  · rintro ⟨p, hp, rfl⟩
    exact dedupKvs_covers (hperm.symm.subset hp)
  · rintro ⟨q, hq, rfl⟩
    exact ⟨q, hperm.subset (mem_of_mem_dedupKvs hq), rfl⟩

/-- Witness for C4 at a concrete input with a duplicate key: the pair
`([1], [7], delete)` appears last among the key-`[1]` pairs and survives. -/
theorem c4_witness :
    ([⟨[1], [10], false⟩, ⟨[0], [5], false⟩, ⟨[1], [7], true⟩] : List Pair) ≠ [] ∧
      (writeRowsPrepared [⟨[1], [10], false⟩, ⟨[0], [5], false⟩, ⟨[1], [7], true⟩]).Pairwise
        pairLt ∧
      ((sortKvs [⟨[1], [10], false⟩, ⟨[0], [5], false⟩, ⟨[1], [7], true⟩]).filter
          (fun p => p.key == (Pair.key ⟨[1], [7], true⟩))).getLast? = some ⟨[1], [7], true⟩ := by
  refine ⟨by decide, ?_, ?_⟩
  · exact (c4_writeRows_last_writer_wins
      [⟨[1], [10], false⟩, ⟨[0], [5], false⟩, ⟨[1], [7], true⟩] (by decide)).1
  · exact (c4_writeRows_last_writer_wins
      [⟨[1], [10], false⟩, ⟨[0], [5], false⟩, ⟨[1], [7], true⟩] (by decide)).2.2
      ⟨[1], [7], true⟩ (by decide)

/-- Modelled from the spec: `beforeEnd` is not under `src/`.  A key is
before an end key when it compares strictly below it, an empty end key
meaning `+∞` (spec §3: half-open region intervals, empty `endKey` = `+∞`). -/
def beforeEnd (key endk : List Nat) : Bool := bytesCmp key endk == .lt || endk.isEmpty

/-- The first loop of `doWriteAndIngest`: index of the first pair at or
after the region's decoded start key (`bytes.Compare(kv.Key, startKey) >= 0`);
the Go variable `start` keeps its zero value when no pair qualifies. -/
def writeStartIdx (kvs : List Pair) (startKey : List Nat) : Nat :=
  if kvs.any (fun kv => bytesCmp kv.key startKey != .lt) then
    kvs.findIdx (fun kv => bytesCmp kv.key startKey != .lt)
  else 0

/-- The second loop of `doWriteAndIngest`: one past the index of the last
pair before the region's decoded end key, scanning from the right; the Go
variable `end` keeps its zero value when no pair qualifies. -/
def writeEndIdx (kvs : List Pair) (endKey : List Nat) : Nat :=
  if kvs.reverse.any (fun kv => beforeEnd kv.key endKey) then
    kvs.length - kvs.reverse.findIdx (fun kv => beforeEnd kv.key endKey)
  else 0

/-- The sub-slice `kvs[start:end]` that `doWriteAndIngest` hands to
`writeToTiKV` (Go would panic when `start > end`; under the theorems'
hypotheses `start ≤ end` holds). -/
def writeSlice (kvs : List Pair) (startKey endKey : List Nat) : List Pair :=
  (kvs.take (writeEndIdx kvs endKey)).drop (writeStartIdx kvs startKey)

/-- The batches `writeToTiKV` sends on every peer's stream: the loop
flushes whenever `count >= BatchWriteKVPairs` and once more for the
remainder, so the pairs are cut into chunks of `max n 1` (a non-positive
configured batch size degenerates to one pair per chunk).  The fuel
argument is the list length, making the recursion structural. -/
def chunkPairsAux (n : Nat) : Nat → List Pair → List (List Pair)
  | 0, _ => []
  | _, [] => []
  | fuel + 1, x :: rest =>
    (x :: rest.take (max n 1 - 1)) :: chunkPairsAux n fuel (rest.drop (max n 1 - 1))

def chunkPairs (n : Nat) (l : List Pair) : List (List Pair) := chunkPairsAux n l.length l

/-- The full pair sequence streamed (in order) to each peer of the region
by `doWriteAndIngest`: the concatenation of the write batches of the
selected sub-slice. -/
def streamedPairs (n : Nat) (kvs : List Pair) (startKey endKey : List Nat) : List Pair :=
  (chunkPairs n (writeSlice kvs startKey endKey)).flatten

/-- A pair's key lies in the region's half-open decoded interval
`[startKey, endKey)` (empty `endKey` = `+∞`). -/
def pairInRegion (startKey endKey : List Nat) (kv : Pair) : Bool :=
  bytesCmp kv.key startKey != .lt && beforeEnd kv.key endKey

theorem chunkPairsAux_flatten (n : Nat) :
    ∀ (fuel : Nat) (l : List Pair), l.length ≤ fuel → (chunkPairsAux n fuel l).flatten = l := by
  intro fuel
  induction fuel with
  | zero =>
    intro l hl
    rw [Nat.le_zero, List.length_eq_zero] at hl
    subst hl
    rfl
  | succ f ih =>
    intro l hl
    cases l with
    | nil => rfl
    | cons x rest =>
      rw [chunkPairsAux]
      rw [List.flatten_cons]
      rw [ih (rest.drop (max n 1 - 1)) ?_]
      · rw [List.cons_append, List.take_append_drop]
      · calc (rest.drop (max n 1 - 1)).length ≤ rest.length := by
              rw [List.length_drop]; omega
          _ ≤ f := by simpa using hl

theorem chunkPairs_flatten (n : Nat) (l : List Pair) : (chunkPairs n l).flatten = l :=
  chunkPairsAux_flatten n l.length l le_rfl

theorem findIdx_eq_length_takeWhile (p : Pair → Bool) :
    ∀ l : List Pair, l.findIdx p = (l.takeWhile (fun a => !p a)).length := by
  intro l
  induction l with
  | nil => rfl
  | cons x xs ih =>
    rw [List.findIdx_cons, List.takeWhile_cons]
    cases hp : p x
    · simp [hp, ih]
    · simp [hp]

theorem drop_findIdx (p : Pair → Bool) (l : List Pair) :
    l.drop (l.findIdx p) = l.dropWhile (fun a => !p a) := by
  induction l with
  | nil => rfl
  | cons x xs ih =>
    rw [List.findIdx_cons, List.dropWhile_cons]
    cases hp : p x
    · simp only [hp, cond_false, Bool.not_false, if_pos rfl]
      simpa using ih
    · simp [hp]

theorem dropWhile_eq_filter_of_upclosed (p : Pair → Bool)
    (hcl : ∀ x y : Pair, pairLe x y → p x = true → p y = true) :
    ∀ {l : List Pair}, l.Pairwise pairLe → l.dropWhile (fun a => !p a) = l.filter p := by
  intro l
  induction l with
  | nil => intro _; rfl
  | cons x xs ih =>
    intro hpw
    obtain ⟨hx, hpw2⟩ := List.pairwise_cons.mp hpw
    rw [List.dropWhile_cons, List.filter_cons]
    cases hp : p x
    · simp only [hp, Bool.not_false, if_pos rfl, Bool.false_eq_true, if_neg (by simp : ¬ (false = true))]
      exact ih hpw2
    · simp only [hp, Bool.not_true, if_neg (by simp : ¬ (false = true)), if_pos rfl]
      congr 1
      exact (List.filter_eq_self.mpr fun y hy => hcl x y (hx y hy) hp).symm

theorem takeWhile_eq_filter_of_downclosed (p : Pair → Bool)
    (hcl : ∀ x y : Pair, pairLe x y → p y = true → p x = true) :
    ∀ {l : List Pair}, l.Pairwise pairLe → l.takeWhile p = l.filter p := by
  intro l
  induction l with
  | nil => intro _; rfl
  | cons x xs ih =>
    intro hpw
    obtain ⟨hx, hpw2⟩ := List.pairwise_cons.mp hpw
    rw [List.takeWhile_cons, List.filter_cons]
    cases hp : p x
    · simp only [hp, if_neg (by simp : ¬ (false = true))]
      symm
      rw [List.filter_eq_nil_iff]
      intro y hy hpy
      have : p x = true := hcl x y (hx y hy) hpy
      rw [hp] at this
      exact Bool.false_ne_true this
    · simp [hp, ih hpw2]

theorem all_dropWhile_false_of_downclosed (p : Pair → Bool)
    (hcl : ∀ x y : Pair, pairLe x y → p y = true → p x = true) :
    ∀ {l : List Pair}, l.Pairwise pairLe → ∀ x ∈ l.dropWhile p, p x = false := by
  intro l
  induction l with
  | nil => intro _ x hx; simp at hx
  | cons a xs ih =>
    intro hpw
    obtain ⟨ha, hpw2⟩ := List.pairwise_cons.mp hpw
    rw [List.dropWhile_cons]
    cases hp : p a
    · simp only [if_neg (by simp : ¬ (false = true))]
      intro x hx
      rcases List.mem_cons.mp hx with rfl | hx2
      · exact hp
      · cases hpx : p x
        · rfl
        · have := hcl a x (ha x hx2) hpx
          rw [hp] at this
          exact absurd this (Bool.false_ne_true)
    · simp only [if_pos rfl]
      exact ih hpw2

theorem findIdx_append_of_all_false (p : Pair → Bool) :
    ∀ (a b : List Pair), (∀ x ∈ a, p x = false) →
      (a ++ b).findIdx p = a.length + b.findIdx p := by
  intro a
  induction a with
  | nil => intro b _; simp
  | cons x xs ih =>
    intro b hall
    have hx : p x = false := hall x (List.mem_cons_self x xs)
    rw [List.cons_append, List.findIdx_cons, hx, cond_false,
      ih b (fun y hy => hall y (List.mem_cons_of_mem x hy))]
    simp [Nat.add_assoc, Nat.add_comm 1]

theorem findIdx_append_of_mem (p : Pair → Bool) :
    ∀ (a b : List Pair), (∃ x ∈ a, p x = true) →
      (a ++ b).findIdx p = a.findIdx p := by
  intro a
  induction a with
  | nil => intro b h; simp at h
  | cons x xs ih =>
    intro b h
    rw [List.cons_append, List.findIdx_cons, List.findIdx_cons]
    cases hp : p x
    · simp only [cond_false]
      obtain ⟨y, hy, hpy⟩ := h
      rcases List.mem_cons.mp hy with rfl | hy2
      · rw [hp] at hpy; exact absurd hpy Bool.false_ne_true
      · rw [ih b ⟨y, hy2, hpy⟩]
    · simp

theorem take_length_takeWhile (q : Pair → Bool) :
    ∀ l : List Pair, l.take (l.takeWhile q).length = l.takeWhile q := by
  intro l
  induction l with
  | nil => rfl
  | cons x xs ih =>
    rw [List.takeWhile_cons]
    cases hq : q x
    · simp
    · simp [ih]

theorem geStart_upclosed (startKey : List Nat) (x y : Pair) (hxy : pairLe x y)
    (hx : (bytesCmp x.key startKey != .lt) = true) :
    (bytesCmp y.key startKey != .lt) = true := by
  cases hcv : bytesCmp y.key startKey with
  | lt =>
    exfalso
    have hlt : bytesCmp x.key startKey = .lt := bytesCmp_lt_of_ne_gt_of_lt hxy hcv
    rw [hlt] at hx
    exact absurd hx (by decide)
  | eq => rfl
  | gt => rfl

theorem beforeEnd_downclosed (endKey : List Nat) (x y : Pair) (hxy : pairLe x y)
    (hy : beforeEnd y.key endKey = true) : beforeEnd x.key endKey = true := by
  unfold beforeEnd at hy ⊢
  rw [Bool.or_eq_true] at hy
  rcases hy with h | h
  · have hlt : bytesCmp y.key endKey = .lt := by
      rcases hcv : bytesCmp y.key endKey with _ | _ | _
      · rfl
      · rw [hcv] at h; exact absurd h (by decide)
      · rw [hcv] at h; exact absurd h (by decide)
    have hx : bytesCmp x.key endKey = .lt := bytesCmp_lt_of_ne_gt_of_lt hxy hlt
    rw [hx]
    rfl
  · rw [h, Bool.or_true]

/-- **C5** (amended).  For a key-sorted kv sequence at least one of whose
keys lies in the region's decoded half-open interval `[startKey, endKey)`
(empty `endKey` = `+∞`), the pairs `doWriteAndIngest` streams to every
peer of the region are exactly the contiguous subsequence of the input
whose keys lie in the interval, each pair exactly once (the concatenation
of the write batches equals the in-interval filter of the input).
Without an in-interval key, the zero-initialised `start`/`end` indices
select a wrong slice, see the counterexample. -/
theorem c5_streamed_pairs_exact (n : Nat) (kvs : List Pair) (startKey endKey : List Nat)
    (hsorted : kvs.Pairwise pairLe)
    (hov : ∃ kv ∈ kvs, pairInRegion startKey endKey kv = true) :
    streamedPairs n kvs startKey endKey = kvs.filter (pairInRegion startKey endKey) := by
  obtain ⟨w, hw, hwin⟩ := hov
  rw [pairInRegion, Bool.and_eq_true] at hwin
  have hPw : (bytesCmp w.key startKey != .lt) = true := hwin.1
  have hQw : beforeEnd w.key endKey = true := hwin.2
  have hTD : kvs.takeWhile (fun kv => beforeEnd kv.key endKey) ++
      kvs.dropWhile (fun kv => beforeEnd kv.key endKey) = kvs :=
    List.takeWhile_append_dropWhile (fun kv => beforeEnd kv.key endKey) kvs
  have hDfalse : ∀ x ∈ kvs.dropWhile (fun kv => beforeEnd kv.key endKey),
      beforeEnd x.key endKey = false :=
    all_dropWhile_false_of_downclosed (fun kv => beforeEnd kv.key endKey)
      (fun x y hxy hy => beforeEnd_downclosed endKey x y hxy hy) hsorted
  have hwT : w ∈ kvs.takeWhile (fun kv => beforeEnd kv.key endKey) := by
    have hw2 : w ∈ kvs.takeWhile (fun kv => beforeEnd kv.key endKey) ++
        kvs.dropWhile (fun kv => beforeEnd kv.key endKey) := by
      rw [hTD]
      exact hw
    rcases List.mem_append.mp hw2 with h | h
    · exact h
    · rw [hDfalse w h] at hQw
      exact absurd hQw Bool.false_ne_true
  have hanyQ : kvs.reverse.any (fun kv => beforeEnd kv.key endKey) = true := by
    rw [List.any_eq_true]
    exact ⟨w, List.mem_reverse.mpr hw, hQw⟩
  have hrev : kvs.reverse = (kvs.dropWhile (fun kv => beforeEnd kv.key endKey)).reverse ++
      (kvs.takeWhile (fun kv => beforeEnd kv.key endKey)).reverse := by
    conv_lhs => rw [← hTD]
    rw [List.reverse_append]
  have hfindrev : kvs.reverse.findIdx (fun kv => beforeEnd kv.key endKey) =
      (kvs.dropWhile (fun kv => beforeEnd kv.key endKey)).length := by
    rw [hrev, findIdx_append_of_all_false _ _ _
      (fun x hx => hDfalse x (List.mem_reverse.mp hx))]
    rw [List.length_reverse]
    rcases hTrev : (kvs.takeWhile (fun kv => beforeEnd kv.key endKey)).reverse with _ | ⟨y, ys⟩
    · rw [List.reverse_eq_nil_iff] at hTrev
      rw [hTrev] at hwT
      simp at hwT
    · have hy : y ∈ kvs.takeWhile (fun kv => beforeEnd kv.key endKey) := by
        rw [← List.mem_reverse, hTrev]
        exact List.mem_cons_self y ys
      have hQy : beforeEnd y.key endKey = true := by
        have h2 := @List.mem_takeWhile_imp Pair (fun kv => beforeEnd kv.key endKey) kvs y hy
        simpa using h2
      rw [hTrev]
      simp [List.findIdx_cons, hQy]
  have hlen : kvs.length = (kvs.takeWhile (fun kv => beforeEnd kv.key endKey)).length +
      (kvs.dropWhile (fun kv => beforeEnd kv.key endKey)).length := by
    conv_lhs => rw [← hTD]
    rw [List.length_append]
  have hend : writeEndIdx kvs endKey =
      (kvs.takeWhile (fun kv => beforeEnd kv.key endKey)).length := by
    unfold writeEndIdx
    rw [if_pos hanyQ, hfindrev]
    omega
  have htake : kvs.take (writeEndIdx kvs endKey) =
      kvs.takeWhile (fun kv => beforeEnd kv.key endKey) := by
    rw [hend]
    exact take_length_takeWhile _ kvs
  have hanyP : kvs.any (fun kv => bytesCmp kv.key startKey != .lt) = true := by
    rw [List.any_eq_true]
    exact ⟨w, hw, hPw⟩
  have hstart : writeStartIdx kvs startKey =
      kvs.findIdx (fun kv => bytesCmp kv.key startKey != .lt) := by
    unfold writeStartIdx
    rw [if_pos hanyP]
  have hfindT : kvs.findIdx (fun kv => bytesCmp kv.key startKey != .lt) =
      (kvs.takeWhile (fun kv => beforeEnd kv.key endKey)).findIdx
        (fun kv => bytesCmp kv.key startKey != .lt) := by
    conv_lhs => rw [← hTD]
    exact findIdx_append_of_mem _ _ _ ⟨w, hwT, hPw⟩
  have hTpw : (kvs.takeWhile (fun kv => beforeEnd kv.key endKey)).Pairwise pairLe :=
    hsorted.sublist (List.takeWhile_sublist _)
  unfold streamedPairs
  rw [chunkPairs_flatten]
  unfold writeSlice
  rw [htake, hstart, hfindT, drop_findIdx,
    dropWhile_eq_filter_of_upclosed _ (fun x y hxy hx => geStart_upclosed startKey x y hxy hx)
      hTpw,
    takeWhile_eq_filter_of_downclosed _
      (fun x y hxy hy => beforeEnd_downclosed endKey x y hxy hy) hsorted,
    List.filter_filter]
  rfl

/-- Concrete input refuting C5 as stated: a single pair whose key `[0]`
lies entirely before the region `[[1], +∞)`.  The first scan loop never
fires, `start` stays `0`, and the pair is streamed although its key is
outside the region's interval. -/
theorem c5_counterexample :
    streamedPairs 2 [⟨[0], [1], false⟩] [1] [] = [⟨[0], [1], false⟩] ∧
      pairInRegion [1] [] ⟨[0], [1], false⟩ = false ∧
      ([⟨[0], [1], false⟩] : List Pair).Pairwise pairLe := by
  refine ⟨by decide, by decide, by decide⟩

/-- Witness for the amended C5 at a concrete input. -/
theorem c5_witness :
    ([⟨[0], [0], false⟩, ⟨[1], [1], false⟩, ⟨[2], [2], false⟩] : List Pair).Pairwise pairLe ∧
      pairInRegion [1] [2] ⟨[1], [1], false⟩ = true ∧
      streamedPairs 2 [⟨[0], [0], false⟩, ⟨[1], [1], false⟩, ⟨[2], [2], false⟩] [1] [2] =
        ([⟨[0], [0], false⟩, ⟨[1], [1], false⟩, ⟨[2], [2], false⟩] : List Pair).filter
          (pairInRegion [1] [2]) := by
  refine ⟨by decide, by decide, ?_⟩
  exact c5_streamed_pairs_exact 2
    [⟨[0], [0], false⟩, ⟨[1], [1], false⟩, ⟨[2], [2], false⟩] [1] [2]
    (by decide) ⟨⟨[1], [1], false⟩, by decide, by decide⟩

/-- A peer (`metapb.Peer`): one replica of a region on a store. -/
structure Peer where
  id : Nat
  storeId : Nat
deriving DecidableEq, Repr

/-- A region epoch (`metapb.RegionEpoch`). -/
structure RegionEpoch where
  confVer : Nat
  version : Nat
deriving DecidableEq, Repr

/-- A region descriptor (`metapb.Region`): the fields the ingest error
classifier uses. -/
structure Region where
  id : Nat
  startKey : List Nat
  endKey : List Nat
  regionEpoch : RegionEpoch
  peers : List Peer
deriving DecidableEq, Repr

/-- `RegionInfo`: a region snapshot together with its leader peer (which
can be `nil` in Go, hence the `Option`). -/
structure RegionInfo where
  region : Region
  leader : Option Peer
deriving DecidableEq, Repr

/-- `sst.Range` of an SSTMeta (`End` renamed to `stop`: `end` is a
reserved word). -/
structure SSTRange where
  start : List Nat
  stop : List Nat
deriving DecidableEq, Repr

/-- `sst.SSTMeta`: the fields the classifier uses. -/
structure SSTMeta where
  uuid : List Nat
  regionId : Nat
  regionEpoch : RegionEpoch
  range : SSTRange
deriving DecidableEq, Repr

/-- The `NotLeader` error payload: an optional hinted new leader. -/
structure NotLeaderErr where
  leader : Option Peer
deriving DecidableEq, Repr

/-- The `EpochNotMatch` error payload: the server's current regions
(`GetCurrentRegions()`; Go's nil and empty slices both leave the search
empty-handed, so a plain list suffices). -/
structure EpochNotMatchErr where
  currentRegions : List Region
deriving DecidableEq, Repr

/-- `resp.GetError()` payload: the Go switch tests `NotLeader` first,
then `EpochNotMatch`. -/
structure IngestErrorPb where
  notLeader : Option NotLeaderErr
  epochNotMatch : Option EpochNotMatchErr
deriving DecidableEq, Repr

/-- The classified error returned by `isIngestRetryable` (the annotated
`berrors` values). -/
inductive IngestErrClass
  | errNotLeader
  | errEpochNotMatch
  | errKVUnknown
deriving DecidableEq, Repr

/-- `region.Leader.GetStoreId()`: Go generated getters return the zero
value on a nil receiver. -/
def leaderStoreId (ri : RegionInfo) : Nat := (ri.leader.map Peer.storeId).getD 0

/-- Modelled from the spec: `keyInsideRegion` is not under `src/`.  A key
is inside a region's half-open interval, the empty end key meaning `+∞`
(spec §3). -/
def keyInsideRegion (r : Region) (key : List Nat) : Bool :=
  (bytesCmp key r.startKey != .lt) && (r.endKey.isEmpty || bytesCmp key r.endKey == .lt)

/-- `insideRegion` from `log_client.go`: both ends of the meta's range lie
inside the region. -/
def insideRegion (r : Region) (meta : SSTMeta) : Bool :=
  keyInsideRegion r meta.range.start && keyInsideRegion r meta.range.stop

/-- The loop of the `EpochNotMatch` branch over `currentRegions`: the
first region containing the meta's range. -/
def findContainingRegion : List Region → SSTMeta → Option Region
  | [], _ => none
  | r :: rest, meta =>
    if insideRegion r meta then some r else findContainingRegion rest meta

/-- The loop over the found region's peers: the first peer on the given
store. -/
def findPeerOnStore : List Peer → Nat → Option Peer
  | [], _ => none
  | p :: rest, sid => if p.storeId == sid then some p else findPeerOnStore rest sid

/-- `isIngestRetryable` from `log_client.go`: classify an ingest response
into `(retryable, newRegion, classifiedError)`.  A `NotLeader` case
without a hinted leader falls out of the switch to the final
`ErrKVUnknown` return. -/
def isIngestRetryable (respErr : Option IngestErrorPb) (region : RegionInfo)
    (meta : SSTMeta) : Bool × Option RegionInfo × Option IngestErrClass :=
  match respErr with
  | none => (false, none, none)
  | some errPb =>
    match errPb.notLeader with
    | some nl =>
      match nl.leader with
      | some newLeader =>
        (true, some { region := region.region, leader := some newLeader }, some .errNotLeader)
      | none => (false, none, some .errKVUnknown)
    | none =>
      match errPb.epochNotMatch with
      | some en =>
        let newRegion :=
          match findContainingRegion en.currentRegions meta with
          | some currentRegion =>
            match findPeerOnStore currentRegion.peers (leaderStoreId region) with
            | some newLeader => some { region := currentRegion, leader := some newLeader }
            | none => none
          | none => none
        (true, newRegion, some .errEpochNotMatch)
      | none => (false, none, some .errKVUnknown)

/-- The case analysis of C4.8 of the spec, written with `List.find?` for
"pick the first region containing `meta.range`; within it pick the peer
on the same store as the old leader". -/
def ingestRetryableSpec (respErr : Option IngestErrorPb) (region : RegionInfo)
    (meta : SSTMeta) : Bool × Option RegionInfo × Option IngestErrClass :=
  match respErr with
  | none => (false, none, none)
  | some errPb =>
    match errPb.notLeader with
    | some ⟨some hinted⟩ =>
      (true, some { region := region.region, leader := some hinted }, some .errNotLeader)
    | some ⟨none⟩ => (false, none, some .errKVUnknown)
    | none =>
      match errPb.epochNotMatch with
      | some en =>
        (true,
          (en.currentRegions.find? (fun r => insideRegion r meta)).bind fun r =>
            (r.peers.find? (fun p => p.storeId == leaderStoreId region)).map fun p =>
              { region := r, leader := some p },
          some .errEpochNotMatch)
      | none => (false, none, some .errKVUnknown)

theorem findContainingRegion_eq_find? (meta : SSTMeta) :
    ∀ l : List Region, findContainingRegion l meta = l.find? (fun r => insideRegion r meta) := by
  intro l
  induction l with
  | nil => rfl
  | cons r rest ih =>
    rw [findContainingRegion]
    cases h : insideRegion r meta
    · rw [if_neg (by simp [h]), ih]
      symm
      simp [List.find?_cons, h]
    · rw [if_pos (by simp [h])]
      symm
      simp [List.find?_cons, h]

theorem findPeerOnStore_eq_find? (sid : Nat) :
    ∀ l : List Peer, findPeerOnStore l sid = l.find? (fun p => p.storeId == sid) := by
  intro l
  induction l with
  | nil => rfl
  | cons p rest ih =>
    rw [findPeerOnStore]
    cases h : (p.storeId == sid)
    · rw [if_neg (by simp [h]), ih]
      symm
      simp [List.find?_cons, h]
    · rw [if_pos (by simp [h])]
      symm
      simp [List.find?_cons, h]

/-- **C3**.  `isIngestRetryable` implements exactly the specified case
analysis: nil error ⇒ `(false, nil, nil)`; `NotLeader` with a hinted
leader ⇒ `(true, region with leader replaced, ErrNotLeader)`;
`EpochNotMatch` ⇒ retryable with `ErrEpochNotMatch` and, as new region,
the first current region containing the meta's range paired with its peer
on the old leader's store when both exist, nil otherwise; everything else
(including hint-less `NotLeader`) ⇒ `(false, nil, ErrKVUnknown)`. -/
theorem c3_isIngestRetryable_cases (respErr : Option IngestErrorPb) (region : RegionInfo)
    (meta : SSTMeta) :
    isIngestRetryable respErr region meta = ingestRetryableSpec respErr region meta := by
  rcases respErr with _ | errPb
  · rfl
  · rcases hn : errPb.notLeader with _ | ⟨_ | ldr⟩
    · rcases he : errPb.epochNotMatch with _ | en
      · simp [isIngestRetryable, ingestRetryableSpec, hn, he]
      · simp only [isIngestRetryable, ingestRetryableSpec, hn, he]
        rw [findContainingRegion_eq_find?]
        rcases hf : en.currentRegions.find? (fun r => insideRegion r meta) with _ | cr
        · simp
        · simp only [Option.bind_some]
          rw [findPeerOnStore_eq_find?]
          rcases hp : cr.peers.find? (fun p => p.storeId == leaderStoreId region) with _ | pp
          · simp [hp]
          · simp [hp]
    · simp [isIngestRetryable, ingestRetryableSpec, hn]
    · simp [isIngestRetryable, ingestRetryableSpec, hn]

/-- A raw-kv backed-up range from the backup manifest. -/
structure RawRange where
  cf : List Nat
  startKey : List Nat
  endKey : List Nat
deriving DecidableEq, Repr

/-- The backup manifest fields `GetFilesInRawRange` uses. -/
structure BackupMeta where
  isRawKv : Bool
  rawRanges : List RawRange
  files : List File
deriving DecidableEq, Repr

/-- The two `errors.New` failures of `GetFilesInRawRange`:
"the backup data is not in raw kv mode" and "no backup data in the range". -/
inductive RawRangeErr
  | notRawKvMode
  | noBackupData
deriving DecidableEq, Repr

/-- Modelled from the spec: `utils.CompareEndKey` is not under `src/`.
End keys compare with the empty key standing for `+∞` (spec §3). -/
def compareEndKey (a b : List Nat) : Ordering :=
  if a.isEmpty then (if b.isEmpty then .eq else .gt)
  else if b.isEmpty then .lt
  else bytesCmp a b

/-- The file filter of `GetFilesInRawRange`'s success path: same column
family, not entirely before the query (a nonempty file end key strictly
below `startKey`), and not at-or-after the exclusive query end key. -/
def fileSelected (cf startKey endKey : List Nat) (f : File) : Bool :=
  f.cf == cf &&
    !(!f.endKey.isEmpty && bytesCmp f.endKey startKey == .lt) &&
    !(!endKey.isEmpty && bytesCmp endKey f.startKey != .gt)

/-- The loop of `GetFilesInRawRange` over the manifest's raw ranges:
skip other column families and disjoint ranges; fail on the first range
that overlaps but does not fully contain the query; on full containment
return the filtered file list. -/
def getFilesLoop (files : List File) (startKey endKey cf : List Nat) :
    List RawRange → Except RawRangeErr (List File)
  | [] => .error .noBackupData
  | rr :: rest =>
    if rr.cf != cf then getFilesLoop files startKey endKey cf rest
    else if (!rr.endKey.isEmpty && bytesCmp startKey rr.endKey != .lt) ||
        (!endKey.isEmpty && bytesCmp rr.startKey endKey != .lt) then
      getFilesLoop files startKey endKey cf rest
    else if bytesCmp startKey rr.startKey == .lt ||
        compareEndKey endKey rr.endKey == .gt then
      .error .noBackupData
    else .ok (files.filter (fileSelected cf startKey endKey))

/-- `GetFilesInRawRange` from `client.go`. -/
def getFilesInRawRange (meta : BackupMeta) (startKey endKey cf : List Nat) :
    Except RawRangeErr (List File) :=
  if !meta.isRawKv then .error .notRawKvMode
  else getFilesLoop meta.files startKey endKey cf meta.rawRanges

/-- A raw range is hit by the query: same column family and not disjoint
from `[startKey, endKey)`. -/
def rawRangeHit (startKey endKey cf : List Nat) (rr : RawRange) : Bool :=
  rr.cf == cf &&
    !((!rr.endKey.isEmpty && bytesCmp startKey rr.endKey != .lt) ||
      (!endKey.isEmpty && bytesCmp rr.startKey endKey != .lt))

/-- A raw range fully contains the query interval. -/
def rawRangeContains (startKey endKey : List Nat) (rr : RawRange) : Bool :=
  bytesCmp startKey rr.startKey != .lt && compareEndKey endKey rr.endKey != .gt

/-- The amended C10 behaviour as a specification function: in raw-kv mode
the first cf-matching raw range overlapping the query decides; the call
succeeds iff that range fully contains `[startKey, endKey)`, returning the
cf-matching files intersecting the query. -/
def getFilesInRawRangeSpec (meta : BackupMeta) (startKey endKey cf : List Nat) :
    Except RawRangeErr (List File) :=
  if !meta.isRawKv then .error .notRawKvMode
  else
    match meta.rawRanges.find? (rawRangeHit startKey endKey cf) with
    | none => .error .noBackupData
    | some rr =>
      if rawRangeContains startKey endKey rr then
        .ok (meta.files.filter (fileSelected cf startKey endKey))
      else .error .noBackupData

theorem getFilesLoop_eq_spec (files : List File) (startKey endKey cf : List Nat) :
    ∀ l : List RawRange,
      getFilesLoop files startKey endKey cf l =
        match l.find? (rawRangeHit startKey endKey cf) with
        | none => .error .noBackupData
        | some rr =>
          if rawRangeContains startKey endKey rr then
            .ok (files.filter (fileSelected cf startKey endKey))
          else .error .noBackupData := by
  intro l
  induction l with
  | nil => rfl
  | cons rr rest ih =>
    rw [getFilesLoop]
    by_cases hcf : (rr.cf != cf) = true
    · have hhit : rawRangeHit startKey endKey cf rr = false := by
        unfold rawRangeHit
        rcases hc : (rr.cf == cf) with _ | _
        · rfl
        · rw [bne_iff_ne] at hcf
          exact absurd (beq_iff_eq.mp hc) hcf
      rw [if_pos hcf, ih]
      rw [List.find?_cons, hhit]
    · rw [if_neg hcf]
      have hc : (rr.cf == cf) = true := by
        rcases hc2 : (rr.cf == cf) with _ | _
        · exact absurd (by simp [bne, hc2]) hcf
        · rfl
      by_cases hdis : ((!rr.endKey.isEmpty && bytesCmp startKey rr.endKey != .lt) ||
          (!endKey.isEmpty && bytesCmp rr.startKey endKey != .lt)) = true
      · have hhit : rawRangeHit startKey endKey cf rr = false := by
          unfold rawRangeHit
          rw [hc, hdis]
          rfl
        rw [if_pos hdis, ih]
        rw [List.find?_cons, hhit]
      · have hhit : rawRangeHit startKey endKey cf rr = true := by
          unfold rawRangeHit
          rw [hc]
          rw [Bool.not_eq_true] at hdis
          rw [hdis]
          rfl
        by_cases hpart : (bytesCmp startKey rr.startKey == .lt ||
            compareEndKey endKey rr.endKey == .gt) = true
        · have hcont : rawRangeContains startKey endKey rr = false := by
            unfold rawRangeContains
            have hp2 := hpart
            rw [Bool.or_eq_true] at hp2
            rcases hp2 with h | h
            · have hx2 : bytesCmp startKey rr.startKey = .lt := by
                rcases hx : bytesCmp startKey rr.startKey with _ | _ | _
                · rfl
                · rw [hx] at h; exact absurd h (by decide)
                · rw [hx] at h; exact absurd h (by decide)
              rw [hx2]
              rfl
            · have hx2 : compareEndKey endKey rr.endKey = .gt := by
                rcases hx : compareEndKey endKey rr.endKey with _ | _ | _
                · rw [hx] at h; exact absurd h (by decide)
                · rw [hx] at h; exact absurd h (by decide)
                · rfl
              rw [hx2]
              exact Bool.and_false _
          rw [if_neg hdis, if_pos hpart, List.find?_cons, hhit]
          simp [hcont]
        · have hcont : rawRangeContains startKey endKey rr = true := by
            unfold rawRangeContains
            have hp2 := hpart
            rw [Bool.or_eq_true] at hp2
            push_neg at hp2
            obtain ⟨h1, h2⟩ := hp2
            have e1 : (bytesCmp startKey rr.startKey != .lt) = true := by
              rcases hx : bytesCmp startKey rr.startKey with _ | _ | _
              · rw [hx] at h1; exact absurd rfl h1
              · rfl
              · rfl
            have e2 : (compareEndKey endKey rr.endKey != .gt) = true := by
              rcases hx : compareEndKey endKey rr.endKey with _ | _ | _
              · rfl
              · rfl
              · rw [hx] at h2; exact absurd rfl h2
            rw [e1, e2]
            rfl
          rw [if_neg hdis, if_neg hpart, List.find?_cons, hhit]
          simp [hcont]

/-- **C10** (amended).  `GetFilesInRawRange` equals the specification
function: it fails outside raw-kv mode; otherwise the first raw range
with the query's column family that overlaps `[startKey, endKey)` decides
— success iff that range fully contains the query (a merely partial
overlap errors immediately, even when a later range fully contains the
query) — and on success exactly the cf-matching files intersecting the
query are returned, the query's `endKey` exclusive. -/
theorem c10_getFilesInRawRange_spec (meta : BackupMeta) (startKey endKey cf : List Nat) :
    getFilesInRawRange meta startKey endKey cf =
      getFilesInRawRangeSpec meta startKey endKey cf := by
  unfold getFilesInRawRange getFilesInRawRangeSpec
  by_cases hraw : (!meta.isRawKv) = true
  · rw [if_pos hraw, if_pos hraw]
  · rw [if_neg hraw, if_neg hraw]
    exact getFilesLoop_eq_spec meta.files startKey endKey cf meta.rawRanges

/-- The error of a `getFilesInRawRange` call, `none` on success. -/
def rawErrOf (meta : BackupMeta) (startKey endKey cf : List Nat) : Option RawRangeErr :=
  match getFilesInRawRange meta startKey endKey cf with
  | .error e => some e
  | .ok _ => none

/-- The raw range `[[0], [5])` of the C10 counterexample. -/
def cxRawShort : RawRange := { cf := [99], startKey := [0], endKey := [5] }

/-- The raw range `[[0], [10])` of the C10 counterexample: it fully
contains the query `[[3], [8])`. -/
def cxRawLong : RawRange := { cf := [99], startKey := [0], endKey := [10] }

/-- The raw-kv backup manifest of the C10 counterexample. -/
def cxRawMeta : BackupMeta :=
  { isRawKv := true, rawRanges := [cxRawShort, cxRawLong], files := [] }

/-- Concrete input refuting C10 as stated: the query `[[3], [8])` is
fully contained in the backed-up raw range `cxRawLong` of the same column
family, yet the call fails because the earlier range `cxRawShort` overlaps
the query only partially and the loop errors on the first overlap. -/
theorem c10_counterexample :
    rawErrOf cxRawMeta [3] [8] [99] = some .noBackupData ∧
      cxRawLong ∈ cxRawMeta.rawRanges ∧
      cxRawLong.cf = [99] ∧
      rawRangeContains [3] [8] cxRawLong = true := by
  refine ⟨by decide, by decide, by decide, by decide⟩

/-- The sentinel row-change file name `"cdclog"` as bytes. -/
def cdclogName : List Nat := [99, 100, 99, 108, 111, 103]

/-- `filepath.Base` for slash-separated paths without trailing slash: the
suffix after the last `'/'` (byte 47). -/
def pathBase (p : List Nat) : List Nat := (p.reverse.takeWhile (fun c => c != 47)).reverse

/-- The comparator `collectRowChangeFiles` passes to `sort.Slice`:
`less(i, j)` is true outright whenever the `j`-th file's base name is the
sentinel `cdclog`, otherwise the two paths compare as strings. -/
def rowChangeLess (a b : List Nat) : Bool :=
  if pathBase b = cdclogName then true else bytesCmp a b == .lt

/-- **C7** (code bug).  On the table directory entries `t_1/cdclog` and
`t_1/cdclog.2` the comparator holds in both directions: the sentinel path
is a strict string-order below the dotted path, and the dotted path is
"less" than the sentinel by the special case.  `sort.Slice` requires a
strict weak ordering, so the produced order — in particular the claimed
sentinel-last placement — is unspecified, not guaranteed. -/
theorem c7_comparator_both_directions :
    rowChangeLess [116, 95, 49, 47, 99, 100, 99, 108, 111, 103]
        [116, 95, 49, 47, 99, 100, 99, 108, 111, 103, 46, 50] = true ∧
      rowChangeLess [116, 95, 49, 47, 99, 100, 99, 108, 111, 103, 46, 50]
        [116, 95, 49, 47, 99, 100, 99, 108, 111, 103] = true := by
  refine ⟨by decide, by decide⟩

end BR
